import Mathlib

/-!
Verification of the metrics query-symbol label generator from
`static/app/components/metrics/querySymbol.tsx`.

The source is JavaScript/TypeScript, so the embedding models the JS
semantics that matter here:
* `i % n` on numbers is the truncated remainder (sign of the dividend),
  modelled by `Int.tmod`;
* `Math.floor(i / n)` is floor division, modelled by `Int.fdiv`;
* indexing a string out of bounds (`s[d]` with `d < 0` or `d ≥ s.length`)
  yields `undefined`, and `undefined + result` coerces to the string
  `"undefined" ++ result`, modelled by `jsStringIndex` / `jsCharConcat`.
-/

/-- The lookup table `const indexToChar = 'abcdefghijklmnopqrstuvwxyz'`. -/
def indexToChar : String := "abcdefghijklmnopqrstuvwxyz"

/-- JS string indexing `s[d]` for an integer index `d`: the character when
`0 ≤ d < s.length`, otherwise `undefined` (modelled as `none`). -/
def jsStringIndex (s : String) (d : Int) : Option Char :=
  if 0 ≤ d then s.data.get? d.toNat else none

/-- JS string concatenation `s[d] + rest`: a defined character is prepended,
while `undefined` is coerced to the string `"undefined"`. -/
def jsCharConcat (c : Option Char) (rest : String) : String :=
  match c with
  | some ch => String.singleton ch ++ rest
  | none => "undefined" ++ rest

/-- The loop update `i = Math.floor(i / indexToChar.length) - 1`. -/
def nextIndex (i : Int) : Int := Int.fdiv i (indexToChar.length : Int) - 1

/-- The do-while loop of `getQuerySymbol`: the body
`result = indexToChar[i % indexToChar.length] + result;
i = Math.floor(i / indexToChar.length) - 1;` always runs once, and the
loop repeats while `i >= 0`. -/
def getQuerySymbolLoop (i : Int) (acc : String) : String :=
  let acc' := jsCharConcat (jsStringIndex indexToChar (Int.tmod i (indexToChar.length : Int))) acc
  if _h : 0 ≤ nextIndex i then getQuerySymbolLoop (nextIndex i) acc' else acc'
termination_by i.toNat
decreasing_by
  have hlen : (indexToChar.length : Int) = 26 := by decide
  simp only [nextIndex, hlen] at _h ⊢
  rw [Int.fdiv_eq_ediv _ (by norm_num)] at _h ⊢
  omega

/-- `export const getQuerySymbol = (index: number) => {...}`. -/
def getQuerySymbol (index : Int) : String := getQuerySymbolLoop index ""

/-- Fuel-bounded version of the same do-while loop, used to express
termination: `none` means the fuel ran out before the loop exited. -/
def getQuerySymbolFuel : Nat → Int → String → Option String
  | 0, _, _ => none
  | fuel + 1, i, acc =>
    let acc' :=
      jsCharConcat (jsStringIndex indexToChar (Int.tmod i (indexToChar.length : Int))) acc
    if 0 ≤ nextIndex i then getQuerySymbolFuel fuel (nextIndex i) acc' else some acc'

/-- Modelled from the spec: the reference algorithm of section 4.1
(`generateLabel`): working value `i` starts at `index`, the accumulator
starts empty; each pass prepends the letter `'a' + (i mod 26)` and then
sets `i = floor(i / 26) - 1`; the body runs at least once (do-while) and
repeats while `i ≥ 0`. -/
def generateLabelSpecLoop (i : Int) (acc : String) : String :=
  let digit := i % 26
  let acc' := String.singleton (Char.ofNat ('a'.toNat + digit.toNat)) ++ acc
  if _h : 0 ≤ Int.fdiv i 26 - 1 then generateLabelSpecLoop (Int.fdiv i 26 - 1) acc' else acc'
termination_by i.toNat
decreasing_by
  rw [Int.fdiv_eq_ediv _ (by norm_num)] at _h ⊢
  omega

/-- Modelled from the spec: `generateLabel(index)` runs the reference
loop starting from `index` with an empty accumulator. -/
def generateLabelSpec (index : Int) : String := generateLabelSpecLoop index ""

/-- The two styled variants the `QuerySymbol` component can render. -/
inductive SymbolVariant where
  | Symbol
  | DeprecatedSymbol
deriving DecidableEq

/-- The `QuerySymbol` component: given the external capability flag
`hasMetricsNewInputs(organization)` and the `queryId` prop, it renders
nothing (`none`) when `queryId < 0`, and otherwise renders the variant
chosen by the flag with text content `getQuerySymbol queryId`. -/
def QuerySymbol (hasNewInputs : Bool) (queryId : Int) : Option (SymbolVariant × String) :=
  if queryId < 0 then none
  else
    some
      (if hasNewInputs then SymbolVariant.Symbol else SymbolVariant.DeprecatedSymbol,
        getQuerySymbol queryId)

/-! ### Proof infrastructure: a structural form of the loop on `Nat` -/

/-- The letter written for digit `d`: `'a' + d`. -/
def letter (d : Nat) : Char := Char.ofNat ('a'.toNat + d)

/-- Fuel-bounded structural recursion computing the label of `n ≥ 0`
last-digit first: `n < 26` gives a single letter, otherwise the label of
`n / 26 - 1` followed by the letter of `n % 26`. -/
def gqsListF : Nat → Nat → List Char
  | 0, _ => []
  | fuel + 1, n =>
    if n < 26 then [letter n] else gqsListF fuel (n / 26 - 1) ++ [letter (n % 26)]

/-- The label of `n` as a list of characters (fuel `n + 1` suffices). -/
def gqsList (n : Nat) : List Char := gqsListF (n + 1) n

/-- Bijective base-26 value of a character list: `val [] = 0` and
`val (l ++ [c]) = 26 * val l + (c - 'a' + 1)`; subtracting 1 inverts
`gqsList`. -/
def labelVal (l : List Char) : Nat :=
  l.foldl (fun acc c => acc * 26 + (c.toNat - 96)) 0

/-- `sumPow k = 26 + 26^2 + ⋯ + 26^k`, the k-th length-change threshold. -/
def sumPow : Nat → Nat
  | 0 => 0
  | k + 1 => 26 * (sumPow k + 1)

lemma gqsListF_congr : ∀ n fuel1 fuel2, n < fuel1 → n < fuel2 →
    gqsListF fuel1 n = gqsListF fuel2 n := by
  intro n
  induction n using Nat.strong_induction_on with
  | _ n ih =>
    intro fuel1 fuel2 h1 h2
    match fuel1, fuel2 with
    | g1 + 1, g2 + 1 =>
      simp only [gqsListF]
      split
      · rfl
      · next hn =>
        have hlt : n / 26 - 1 < n := by omega
        rw [ih (n / 26 - 1) hlt g1 g2 (by omega) (by omega)]

lemma gqsList_eq (n : Nat) :
    gqsList n = if n < 26 then [letter n] else gqsList (n / 26 - 1) ++ [letter (n % 26)] := by
  show gqsListF (n + 1) n = _
  simp only [gqsListF]
  split
  · rfl
  · next hn =>
    have hlt : n / 26 - 1 < n := by omega
    rw [gqsListF_congr (n / 26 - 1) n (n / 26 - 1 + 1) hlt (by omega)]
    rfl

/-! ### Bridging the JS loop on `Int` to the structural recursion on `Nat` -/

lemma indexToChar_lookup : ∀ d : Nat, d < 26 → indexToChar.data.get? d = some (letter d) := by
  decide

lemma indexToChar_len : (indexToChar.length : Int) = 26 := by decide

lemma tmod_natCast (m : Nat) : Int.tmod (m : Int) 26 = ((m % 26 : Nat) : Int) := by
  rw [Int.tmod_eq_emod (by positivity) (by norm_num)]
  omega

lemma jsStringIndex_natCast (m : Nat) :
    jsStringIndex indexToChar ((m % 26 : Nat) : Int) = some (letter (m % 26)) := by
  have h26 : m % 26 < 26 := Nat.mod_lt _ (by norm_num)
  simp only [jsStringIndex, if_pos (by positivity : (0 : Int) ≤ ((m % 26 : Nat) : Int)),
    Int.toNat_natCast]
  exact indexToChar_lookup _ h26

lemma nextIndex_natCast (m : Nat) : nextIndex (m : Int) = ((m / 26 : Nat) : Int) - 1 := by
  rw [nextIndex, indexToChar_len, Int.fdiv_eq_ediv _ (by norm_num)]
  omega

lemma getQuerySymbolLoop_data : ∀ (m : Nat) (acc : String),
    (getQuerySymbolLoop (m : Int) acc).data = gqsList m ++ acc.data := by
  intro m
  induction m using Nat.strong_induction_on with
  | _ m ih =>
    intro acc
    rw [getQuerySymbolLoop]
    simp only [indexToChar_len, tmod_natCast, jsStringIndex_natCast, jsCharConcat,
      nextIndex_natCast]
    by_cases hm : m < 26
    · have hdiv : m / 26 = 0 := Nat.div_eq_of_lt hm
      rw [dif_neg (by rw [hdiv]; norm_num)]
      rw [gqsList_eq m, if_pos hm, Nat.mod_eq_of_lt hm, String.data_append]
      rfl
    · have hdiv1 : 1 ≤ m / 26 := by omega
      rw [dif_pos (by omega)]
      have hcast : ((m / 26 : Nat) : Int) - 1 = ((m / 26 - 1 : Nat) : Int) := by omega
      rw [hcast, ih (m / 26 - 1) (by omega)]
      rw [gqsList_eq m, if_neg hm, String.data_append, List.append_assoc]
      rfl

lemma getQuerySymbol_natCast (m : Nat) : getQuerySymbol (m : Int) = String.mk (gqsList m) := by
  apply String.ext
  rw [getQuerySymbol, getQuerySymbolLoop_data m ""]
  simp

lemma generateLabelSpecLoop_data : ∀ (m : Nat) (acc : String),
    (generateLabelSpecLoop (m : Int) acc).data = gqsList m ++ acc.data := by
  intro m
  induction m using Nat.strong_induction_on with
  | _ m ih =>
    intro acc
    rw [generateLabelSpecLoop]
    have hmod : ((m : Int) % 26).toNat = m % 26 := by omega
    have hfd : Int.fdiv (m : Int) 26 - 1 = ((m / 26 : Nat) : Int) - 1 := by
      rw [Int.fdiv_eq_ediv _ (by norm_num)]
      omega
    simp only [hmod, hfd]
    have hletter : Char.ofNat ('a'.toNat + m % 26) = letter (m % 26) := rfl
    rw [hletter]
    by_cases hm : m < 26
    · have hdiv : m / 26 = 0 := Nat.div_eq_of_lt hm
      rw [dif_neg (by rw [hdiv]; norm_num)]
      rw [gqsList_eq m, if_pos hm, Nat.mod_eq_of_lt hm, String.data_append]
      rfl
    · have hdiv1 : 1 ≤ m / 26 := by omega
      rw [dif_pos (by omega)]
      have hcast : ((m / 26 : Nat) : Int) - 1 = ((m / 26 - 1 : Nat) : Int) := by omega
      rw [hcast, ih (m / 26 - 1) (by omega)]
      rw [gqsList_eq m, if_neg hm, String.data_append, List.append_assoc]
      rfl

lemma generateLabelSpec_natCast (m : Nat) :
    generateLabelSpec (m : Int) = String.mk (gqsList m) := by
  apply String.ext
  rw [generateLabelSpec, generateLabelSpecLoop_data m ""]
  simp

/-! ### The bijective base-26 valuation inverts the generator -/

lemma labelVal_append (l : List Char) (c : Char) :
    labelVal (l ++ [c]) = labelVal l * 26 + (c.toNat - 96) := by
  simp [labelVal, List.foldl_append]

lemma letter_toNat : ∀ d : Nat, d < 26 → (letter d).toNat = 97 + d := by decide

lemma labelVal_gqsList : ∀ n : Nat, labelVal (gqsList n) = n + 1 := by
  intro n
  induction n using Nat.strong_induction_on with
  | _ n ih =>
    rw [gqsList_eq]
    by_cases hn : n < 26
    · rw [if_pos hn]
      have := letter_toNat n hn
      simp [labelVal]
      omega
    · rw [if_neg hn, labelVal_append, ih (n / 26 - 1) (by omega)]
      have := letter_toNat (n % 26) (Nat.mod_lt _ (by norm_num))
      omega

lemma gqsList_injective (n1 n2 : Nat) (h : gqsList n1 = gqsList n2) : n1 = n2 := by
  have h1 := labelVal_gqsList n1
  have h2 := labelVal_gqsList n2
  rw [h] at h1
  omega

lemma letter_range : ∀ d : Nat, d < 26 → 'a' ≤ letter d ∧ letter d ≤ 'z' := by decide

lemma char_range_iff (c : Char) : ('a' ≤ c ∧ c ≤ 'z') ↔ (97 ≤ c.toNat ∧ c.toNat ≤ 122) := by
  constructor
  · intro ⟨h1, h2⟩
    exact ⟨h1, h2⟩
  · intro ⟨h1, h2⟩
    exact ⟨h1, h2⟩

lemma gqsList_valid : ∀ n : Nat, ∀ c ∈ gqsList n, 'a' ≤ c ∧ c ≤ 'z' := by
  intro n
  induction n using Nat.strong_induction_on with
  | _ n ih =>
    intro c hc
    rw [gqsList_eq] at hc
    by_cases hn : n < 26
    · rw [if_pos hn] at hc
      simp at hc
      rw [hc]
      exact letter_range n hn
    · rw [if_neg hn] at hc
      rcases List.mem_append.mp hc with h | h
      · exact ih (n / 26 - 1) (by omega) c h
      · simp at h
        rw [h]
        exact letter_range (n % 26) (Nat.mod_lt _ (by norm_num))

lemma gqsList_ne_nil : ∀ n : Nat, gqsList n ≠ [] := by
  intro n
  rw [gqsList_eq]
  by_cases hn : n < 26
  · rw [if_pos hn]
    simp
  · rw [if_neg hn]
    simp

lemma letter_of_char (c : Char) (h1 : 97 ≤ c.toNat) : letter (c.toNat - 97) = c := by
  show Char.ofNat ('a'.toNat + (c.toNat - 97)) = c
  have ha : 'a'.toNat = 97 := rfl
  have h : 'a'.toNat + (c.toNat - 97) = c.toNat := by omega
  rw [h, Char.ofNat_toNat]

lemma gqsList_surjective : ∀ l : List Char, l ≠ [] →
    (∀ c ∈ l, 97 ≤ c.toNat ∧ c.toNat ≤ 122) → gqsList (labelVal l - 1) = l := by
  intro l
  induction l using List.reverseRecOn with
  | nil => intro h; exact absurd rfl h
  | append_singleton xs c ih =>
    intro _ hvalid
    have hc : 97 ≤ c.toNat ∧ c.toNat ≤ 122 := hvalid c (by simp)
    by_cases hxs : xs = []
    · subst hxs
      have hval : labelVal [c] = c.toNat - 96 := by simp [labelVal]
      rw [List.nil_append, hval, gqsList_eq, if_pos (by omega)]
      have : c.toNat - 96 - 1 = c.toNat - 97 := by omega
      rw [this, letter_of_char c hc.1]
    · have hvx : ∀ x ∈ xs, 97 ≤ x.toNat ∧ x.toNat ≤ 122 := fun x hx => hvalid x (by simp [hx])
      have hih := ih hxs hvx
      have hpos : 1 ≤ labelVal xs := by
        have := labelVal_gqsList (labelVal xs - 1)
        rw [hih] at this
        omega
      rw [labelVal_append]
      have hn26 : ¬(labelVal xs * 26 + (c.toNat - 96) - 1 < 26) := by omega
      rw [gqsList_eq, if_neg hn26]
      have hmod : (labelVal xs * 26 + (c.toNat - 96) - 1) % 26 = c.toNat - 97 := by omega
      have hdiv : (labelVal xs * 26 + (c.toNat - 96) - 1) / 26 - 1 = labelVal xs - 1 := by omega
      rw [hmod, hdiv, hih, letter_of_char c hc.1]

/-! ### Label lengths and the threshold indices `26 + 26² + ⋯ + 26^k` -/

lemma sumPow_succ_top : ∀ k : Nat, sumPow (k + 1) = sumPow k + 26 ^ (k + 1) := by
  intro k
  induction k with
  | zero => rfl
  | succ k ih =>
    show 26 * (sumPow (k + 1) + 1) = 26 * (sumPow k + 1) + 26 ^ (k + 2)
    rw [ih]
    ring

lemma sumPow_eq_sum (k : Nat) : sumPow k = ∑ j ∈ Finset.range k, 26 ^ (j + 1) := by
  induction k with
  | zero => rfl
  | succ k ih => rw [Finset.sum_range_succ, ← ih, sumPow_succ_top]

lemma sumPow_lt_succ (k : Nat) : sumPow k < sumPow (k + 1) := by
  rw [sumPow_succ_top]
  have : 0 < 26 ^ (k + 1) := Nat.pos_pow_of_pos _ (by norm_num)
  omega

lemma sumPow_strictMono : StrictMono sumPow :=
  strictMono_nat_of_lt_succ sumPow_lt_succ

lemma band_exists : ∀ n : Nat, ∃ k, sumPow k ≤ n ∧ n < sumPow (k + 1) := by
  intro n
  induction n with
  | zero => exact ⟨0, Nat.le_refl 0, by decide⟩
  | succ n ih =>
    obtain ⟨k, hk1, hk2⟩ := ih
    by_cases h : n + 1 < sumPow (k + 1)
    · exact ⟨k, by omega, h⟩
    · have heq : n + 1 = sumPow (k + 1) := by omega
      exact ⟨k + 1, by omega, by rw [heq]; exact sumPow_lt_succ (k + 1)⟩

lemma gqsList_length_band : ∀ k n : Nat, sumPow k ≤ n → n < sumPow (k + 1) →
    (gqsList n).length = k + 1 := by
  intro k
  induction k with
  | zero =>
    intro n _ h2
    have h26 : n < 26 := h2
    rw [gqsList_eq, if_pos h26]
    rfl
  | succ k ih =>
    intro n h1 h2
    have hs1 : sumPow (k + 1) = 26 * (sumPow k + 1) := rfl
    have hs2 : sumPow (k + 1 + 1) = 26 * (sumPow (k + 1) + 1) := rfl
    have hn : ¬(n < 26) := by omega
    rw [gqsList_eq, if_neg hn, List.length_append]
    have hband1 : sumPow k ≤ n / 26 - 1 := by omega
    have hband2 : n / 26 - 1 < sumPow (k + 1) := by omega
    rw [ih (n / 26 - 1) hband1 hband2]
    rfl

lemma gqsList_length_mono_and_jump (n : Nat) :
    (gqsList n).length ≤ (gqsList (n + 1)).length ∧
      ((gqsList n).length < (gqsList (n + 1)).length ↔ ∃ k, n + 1 = sumPow (k + 1)) := by
  obtain ⟨k, hk1, hk2⟩ := band_exists n
  have hlen : (gqsList n).length = k + 1 := gqsList_length_band k n hk1 hk2
  by_cases h : n + 1 < sumPow (k + 1)
  · have hlen1 : (gqsList (n + 1)).length = k + 1 := gqsList_length_band k (n + 1) (by omega) h
    refine ⟨by omega, ?_⟩
    constructor
    · intro hlt
      omega
    · rintro ⟨j, hj⟩
      exfalso
      rcases Nat.lt_or_ge j k with hjk | hjk
      · have : sumPow (j + 1) ≤ sumPow k := sumPow_strictMono.le_iff_le.mpr (by omega)
        omega
      · have : sumPow (k + 1) ≤ sumPow (j + 1) := sumPow_strictMono.le_iff_le.mpr (by omega)
        omega
  · have heq : n + 1 = sumPow (k + 1) := by omega
    have hlen1 : (gqsList (n + 1)).length = k + 2 := by
      refine gqsList_length_band (k + 1) (n + 1) (by omega) ?_
      rw [heq]
      exact sumPow_lt_succ (k + 1)
    exact ⟨by omega, by constructor <;> intro _ <;> [exact ⟨k, heq⟩; omega]⟩

/-! ### Termination: fuel bound and one-step behaviour on negative input -/

lemma nextIndex_ediv (i : Int) : nextIndex i = i / 26 - 1 := by
  rw [nextIndex, indexToChar_len, Int.fdiv_eq_ediv _ (by norm_num)]

lemma getQuerySymbolFuel_complete : ∀ (fuel : Nat) (i : Int) (acc : String), 0 ≤ i →
    i < (fuel : Int) → getQuerySymbolFuel fuel i acc = some (getQuerySymbolLoop i acc) := by
  intro fuel
  induction fuel with
  | zero =>
    intro i acc h1 h2
    exfalso
    omega
  | succ fuel ih =>
    intro i acc h1 h2
    rw [getQuerySymbolLoop]
    simp only [getQuerySymbolFuel]
    by_cases h : 0 ≤ nextIndex i
    · rw [if_pos h, dif_pos h]
      refine ih (nextIndex i) _ h ?_
      have := nextIndex_ediv i
      have hle : i / 26 ≤ i := Int.ediv_le_self 26 h1
      omega
    · rw [if_neg h, dif_neg h]

lemma getQuerySymbol_neg_step (i : Int) (h : i < 0) :
    getQuerySymbol i =
      jsCharConcat (jsStringIndex indexToChar (Int.tmod i (indexToChar.length : Int))) "" := by
  rw [getQuerySymbol, getQuerySymbolLoop]
  rw [dif_neg]
  rw [nextIndex_ediv]
  omega

lemma tmod_neg_natCast (m : Nat) : Int.tmod (-(m : Int)) 26 = -((m % 26 : Nat) : Int) := by
  have h1 : Int.tmod (-(m : Int)) 26 = -Int.tmod (m : Int) 26 := by
    simp [Int.tmod_def]
    ring
  rw [h1, tmod_natCast]

/-! ### Claim theorems -/

/-- C1: for every integer index ≥ 0, `getQuerySymbol index` equals the string
produced by the spec's reference do-while algorithm (prepend `'a' + (i mod 26)`,
then set `i = floor(i / 26) - 1`, body at least once, continue while `i ≥ 0`). -/
theorem getQuerySymbol_eq_spec (index : Int) (h : 0 ≤ index) :
    getQuerySymbol index = generateLabelSpec index := by
  obtain ⟨m, rfl⟩ := Int.eq_ofNat_of_zero_le h
  rw [getQuerySymbol_natCast, generateLabelSpec_natCast]

theorem getQuerySymbol_eq_spec_witness :
    (0 : Int) ≤ 27 ∧ getQuerySymbol 27 = generateLabelSpec 27 :=
  ⟨by decide, getQuerySymbol_eq_spec 27 (by decide)⟩

/-- C2: restricted to non-negative integers, `getQuerySymbol` is injective, and
every non-empty string over the lowercase letters `a`–`z` is hit by some
non-negative index, so the map is a bijection onto those strings. -/
theorem getQuerySymbol_bijective :
    (∀ n1 n2 : Int, 0 ≤ n1 → 0 ≤ n2 → n1 ≠ n2 → getQuerySymbol n1 ≠ getQuerySymbol n2) ∧
      (∀ s : String, s ≠ "" → (∀ c ∈ s.data, 'a' ≤ c ∧ c ≤ 'z') →
        ∃ n : Int, 0 ≤ n ∧ getQuerySymbol n = s) := by
  constructor
  · intro n1 n2 h1 h2 hne heq
    obtain ⟨m1, rfl⟩ := Int.eq_ofNat_of_zero_le h1
    obtain ⟨m2, rfl⟩ := Int.eq_ofNat_of_zero_le h2
    rw [getQuerySymbol_natCast, getQuerySymbol_natCast] at heq
    have hdata : gqsList m1 = gqsList m2 := congrArg String.data heq
    have hm := gqsList_injective m1 m2 hdata
    exact hne (by rw [hm])
  · intro s hne hvalid
    have hl : s.data ≠ [] := by
      intro hd
      exact hne (String.ext hd)
    have hvalid' : ∀ c ∈ s.data, 97 ≤ c.toNat ∧ c.toNat ≤ 122 := fun c hc =>
      (char_range_iff c).mp (hvalid c hc)
    refine ⟨((labelVal s.data - 1 : Nat) : Int), by positivity, ?_⟩
    rw [getQuerySymbol_natCast, gqsList_surjective s.data hl hvalid']

theorem getQuerySymbol_bijective_witness :
    getQuerySymbol 0 ≠ getQuerySymbol 1 ∧ ∃ n : Int, 0 ≤ n ∧ getQuerySymbol n = "ab" :=
  ⟨getQuerySymbol_bijective.1 0 1 (by decide) (by decide) (by decide),
    getQuerySymbol_bijective.2 "ab" (by decide) (by decide)⟩

/-- C3: the spec's literal test-case table for `getQuerySymbol`. -/
theorem getQuerySymbol_literal_cases :
    getQuerySymbol 0 = "a" ∧ getQuerySymbol 1 = "b" ∧ getQuerySymbol 25 = "z" ∧
      getQuerySymbol 26 = "aa" ∧ getQuerySymbol 27 = "ab" ∧ getQuerySymbol 51 = "az" ∧
      getQuerySymbol 52 = "ba" ∧ getQuerySymbol 701 = "zz" ∧ getQuerySymbol 702 = "aaa" :=
  ⟨(getQuerySymbol_natCast 0).trans (by decide), (getQuerySymbol_natCast 1).trans (by decide),
    (getQuerySymbol_natCast 25).trans (by decide), (getQuerySymbol_natCast 26).trans (by decide),
    (getQuerySymbol_natCast 27).trans (by decide), (getQuerySymbol_natCast 51).trans (by decide),
    (getQuerySymbol_natCast 52).trans (by decide), (getQuerySymbol_natCast 701).trans (by decide),
    (getQuerySymbol_natCast 702).trans (by decide)⟩

/-- C4: for every integer `n ≥ 0`, `getQuerySymbol n` is non-empty and all of
its characters lie in `a`–`z` (the table lookup is always in bounds). -/
theorem getQuerySymbol_wellformed (n : Int) (h : 0 ≤ n) :
    getQuerySymbol n ≠ "" ∧ ∀ c ∈ (getQuerySymbol n).data, 'a' ≤ c ∧ c ≤ 'z' := by
  obtain ⟨m, rfl⟩ := Int.eq_ofNat_of_zero_le h
  rw [getQuerySymbol_natCast]
  refine ⟨?_, ?_⟩
  · intro he
    exact gqsList_ne_nil m (congrArg String.data he)
  · intro c hc
    exact gqsList_valid m c hc

theorem getQuerySymbol_wellformed_witness :
    (0 : Int) ≤ 27 ∧
      (getQuerySymbol 27 ≠ "" ∧ ∀ c ∈ (getQuerySymbol 27).data, 'a' ≤ c ∧ c ≤ 'z') :=
  ⟨by decide, getQuerySymbol_wellformed 27 (by decide)⟩

/-- C5: over `n ≥ 0` the label length never decreases from `n` to `n + 1`, and
it grows exactly when `n + 1` is a threshold `26 + 26² + ⋯ + 26^(k+1)`, a sum
of powers of 26. -/
theorem getQuerySymbol_length_mono (n : Int) (h : 0 ≤ n) :
    (getQuerySymbol n).length ≤ (getQuerySymbol (n + 1)).length ∧
      ((getQuerySymbol n).length < (getQuerySymbol (n + 1)).length ↔
        ∃ k : Nat, n + 1 = ∑ j ∈ Finset.range (k + 1), (26 : Int) ^ (j + 1)) := by
  obtain ⟨m, rfl⟩ := Int.eq_ofNat_of_zero_le h
  have hsum : ∀ k : Nat, ((sumPow (k + 1) : Nat) : Int) =
      ∑ j ∈ Finset.range (k + 1), (26 : Int) ^ (j + 1) := by
    intro k
    rw [sumPow_eq_sum]
    push_cast
    rfl
  have hcast : ((m : Int) + 1) = ((m + 1 : Nat) : Int) := by omega
  rw [hcast, getQuerySymbol_natCast, getQuerySymbol_natCast]
  have hmain := gqsList_length_mono_and_jump m
  refine ⟨hmain.1, ?_⟩
  constructor
  · intro hlt
    obtain ⟨k, hk⟩ := hmain.2.mp hlt
    refine ⟨k, ?_⟩
    rw [← hsum k]
    exact_mod_cast congrArg (fun t : Nat => (t : Int)) hk
  · rintro ⟨k, hk⟩
    refine hmain.2.mpr ⟨k, ?_⟩
    rw [← hsum k] at hk
    exact_mod_cast hk

theorem getQuerySymbol_length_mono_witness :
    (0 : Int) ≤ 25 ∧
      ((getQuerySymbol 25).length ≤ (getQuerySymbol (25 + 1)).length ∧
        ((getQuerySymbol 25).length < (getQuerySymbol (25 + 1)).length ↔
          ∃ k : Nat, (25 : Int) + 1 = ∑ j ∈ Finset.range (k + 1), (26 : Int) ^ (j + 1))) :=
  ⟨by decide, getQuerySymbol_length_mono 25 (by decide)⟩

/-- C6 counterexample: at index `-1` the generator does not signal any error;
it returns the string `"undefined"` (the out-of-bounds lookup's `undefined`
coerced into the accumulating string). -/
theorem getQuerySymbol_neg_returns_string : getQuerySymbol (-1) = "undefined" :=
  (getQuerySymbol_neg_step (-1) (by norm_num)).trans (by decide)

/-- C6 amended: the generator does not reject negative input and signals no
error: for every negative integer index it silently returns a string, namely
`"a"` when 26 divides the index (the JS remainder is `-0`, an in-bounds lookup)
and the malformed `"undefined"` otherwise. -/
theorem getQuerySymbol_neg_no_error (i : Int) (h : i < 0) :
    getQuerySymbol i = if Int.tmod i 26 = 0 then "a" else "undefined" := by
  have hm : i = -(((-i).toNat : Nat) : Int) := by omega
  have htm : Int.tmod i 26 = -((((-i).toNat % 26 : Nat)) : Int) := by
    conv_lhs => rw [hm]
    exact tmod_neg_natCast _
  rw [getQuerySymbol_neg_step i h, indexToChar_len, htm]
  by_cases h26 : (-i).toNat % 26 = 0
  · rw [h26]
    norm_num
    decide
  · rw [if_neg (by omega)]
    rw [jsStringIndex, if_neg (by omega)]
    rfl

theorem getQuerySymbol_neg_no_error_witness :
    (-7 : Int) < 0 ∧ getQuerySymbol (-7) = if Int.tmod (-7) 26 = 0 then "a" else "undefined" :=
  ⟨by decide, getQuerySymbol_neg_no_error (-7) (by decide)⟩

/-- C7: the `QuerySymbol` component renders nothing exactly when `queryId` is
negative, and for `queryId ≥ 0` it renders the variant selected solely by the
`hasMetricsNewInputs` flag with text content `getQuerySymbol queryId`. -/
theorem QuerySymbol_render (flag : Bool) (q : Int) :
    (QuerySymbol flag q = none ↔ q < 0) ∧
      (0 ≤ q → QuerySymbol flag q =
        some (if flag then SymbolVariant.Symbol else SymbolVariant.DeprecatedSymbol,
          getQuerySymbol q)) := by
  refine ⟨⟨?_, ?_⟩, ?_⟩
  · intro h
    by_contra hq
    rw [QuerySymbol, if_neg hq] at h
    exact Option.noConfusion h
  · intro h
    rw [QuerySymbol, if_pos h]
  · intro h
    rw [QuerySymbol, if_neg (by omega)]

theorem QuerySymbol_render_witness :
    QuerySymbol true (-3) = none ∧
      QuerySymbol false 2 =
        some (if false then SymbolVariant.Symbol else SymbolVariant.DeprecatedSymbol,
          getQuerySymbol 2) :=
  ⟨(QuerySymbol_render true (-3)).1.mpr (by decide), (QuerySymbol_render false 2).2 (by decide)⟩

/-- C8: for every index ≥ 0 the do-while loop terminates after finitely many
iterations: the working value strictly decreases (`floor(i/26) - 1 ≤ i - 1 < i`),
and fuel `i + 1` already suffices for the fuel-bounded loop to exit and produce
`getQuerySymbol i`. -/
theorem getQuerySymbol_terminates (i : Int) (h : 0 ≤ i) :
    (nextIndex i ≤ i - 1 ∧ i - 1 < i) ∧
      getQuerySymbolFuel (i.toNat + 1) i "" = some (getQuerySymbol i) := by
  refine ⟨⟨?_, by omega⟩, ?_⟩
  · rw [nextIndex_ediv]
    have := Int.ediv_le_self 26 h
    omega
  · rw [getQuerySymbol]
    exact getQuerySymbolFuel_complete _ i "" h (by omega)

theorem getQuerySymbol_terminates_witness :
    (0 : Int) ≤ 30 ∧
      ((nextIndex 30 ≤ 30 - 1 ∧ (30 : Int) - 1 < 30) ∧
        getQuerySymbolFuel ((30 : Int).toNat + 1) 30 "" = some (getQuerySymbol 30)) :=
  ⟨by decide, getQuerySymbol_terminates 30 (by decide)⟩

/-- C9: the bijective base-26 recurrence: each digit `0 ≤ d ≤ 25` maps to the
single letter `'a' + d`, and `getQuerySymbol (26 * (n + 1) + d)` is
`getQuerySymbol n` extended by that letter. -/
theorem getQuerySymbol_recurrence (d : Int) (hd1 : 0 ≤ d) (hd2 : d ≤ 25) :
    getQuerySymbol d = String.singleton (Char.ofNat ('a'.toNat + d.toNat)) ∧
      ∀ n : Int, 0 ≤ n → getQuerySymbol (26 * (n + 1) + d) =
        getQuerySymbol n ++ String.singleton (Char.ofNat ('a'.toNat + d.toNat)) := by
  obtain ⟨dd, rfl⟩ := Int.eq_ofNat_of_zero_le hd1
  have hdd : dd < 26 := by exact_mod_cast Int.lt_add_one_of_le hd2
  constructor
  · rw [getQuerySymbol_natCast, Int.toNat_natCast]
    apply String.ext
    rw [gqsList_eq, if_pos hdd]
    rfl
  · intro n hn
    obtain ⟨m, rfl⟩ := Int.eq_ofNat_of_zero_le hn
    have hc : (26 * ((m : Int) + 1) + (dd : Int)) = ((26 * (m + 1) + dd : Nat) : Int) := by
      push_cast
      ring
    rw [hc, getQuerySymbol_natCast, getQuerySymbol_natCast, Int.toNat_natCast]
    apply String.ext
    rw [String.data_append]
    show gqsList (26 * (m + 1) + dd) = gqsList m ++ [Char.ofNat ('a'.toNat + dd)]
    rw [gqsList_eq (26 * (m + 1) + dd), if_neg (by omega)]
    have h1 : (26 * (m + 1) + dd) / 26 - 1 = m := by omega
    have h2 : (26 * (m + 1) + dd) % 26 = dd := by omega
    rw [h1, h2]
    rfl

theorem getQuerySymbol_recurrence_witness :
    (0 : Int) ≤ 1 ∧ (1 : Int) ≤ 25 ∧
      getQuerySymbol 1 = String.singleton (Char.ofNat ('a'.toNat + (1 : Int).toNat)) ∧
      (0 : Int) ≤ 3 ∧
      getQuerySymbol (26 * (3 + 1) + 1) =
        getQuerySymbol 3 ++ String.singleton (Char.ofNat ('a'.toNat + (1 : Int).toNat)) :=
  ⟨by decide, by decide, (getQuerySymbol_recurrence 1 (by decide) (by decide)).1, by decide,
    (getQuerySymbol_recurrence 1 (by decide) (by decide)).2 3 (by decide)⟩

/-- C10: on every negative index the loop still terminates, after exactly one
body execution (the result is a single body step on the empty accumulator), and
whenever the JS remainder is negative the table lookup is out of bounds
(`undefined`), so the returned string is the coercion artifact `"undefined"`
rather than a label formed from the table. -/
theorem getQuerySymbol_negative_one_iteration (i : Int) (h : i < 0) :
    getQuerySymbol i = jsCharConcat (jsStringIndex indexToChar (Int.tmod i 26)) "" ∧
      (Int.tmod i 26 < 0 →
        jsStringIndex indexToChar (Int.tmod i 26) = none ∧ getQuerySymbol i = "undefined") := by
  have hstep := getQuerySymbol_neg_step i h
  rw [indexToChar_len] at hstep
  refine ⟨hstep, ?_⟩
  intro htm
  have hnone : jsStringIndex indexToChar (Int.tmod i 26) = none := by
    rw [jsStringIndex, if_neg (by omega)]
  refine ⟨hnone, ?_⟩
  rw [hstep, hnone]
  rfl

theorem getQuerySymbol_negative_one_iteration_witness :
    (-5 : Int) < 0 ∧
      getQuerySymbol (-5) = jsCharConcat (jsStringIndex indexToChar (Int.tmod (-5) 26)) "" ∧
      Int.tmod (-5) 26 < 0 ∧
      (jsStringIndex indexToChar (Int.tmod (-5) 26) = none ∧ getQuerySymbol (-5) = "undefined") :=
  ⟨by decide, (getQuerySymbol_negative_one_iteration (-5) (by decide)).1, by decide,
    (getQuerySymbol_negative_one_iteration (-5) (by decide)).2 (by decide)⟩
